import Mathlib

/-!
A shallow embedding of the leveled logger of `logger.go` from
telemetry-gokit-log, together with proofs of the specification claims.

Mutable state is modeled explicitly by `Mem`: it holds the backing arrays
of the Go slices used for the `args` field of a `Logger`, and the shared
`int32` cells pointed to by the `lvl` field.  A Go slice value is a header
(index of its backing array plus its length); `make`, `copy` and `append`
are given their Go semantics over `Mem`, so that claims about defensive
copying and about the shared level cell are about real aliasing, not about
Lean's value semantics.  The go-kit line sink, the telemetry metric and
the context carrier are external collaborators of this repository; they
are modeled by identifiers and by the trace of `Event`s a call produces.
-/

namespace GokitLog

/-- A Go `interface` value as it occurs in key-value argument lists:
a string, the nil interface value (also used as the zero value of array
cells), or any other opaque value (integers, errors, ...) identified by a
tag.  Only the string/non-string distinction matters to the code. -/
inductive GoVal where
  | str : String → GoVal
  | nil : GoVal
  | other : Nat → GoVal
deriving DecidableEq

/-- Source type `Level int32`.  The stored values are tiny, so plain `Int`
is a faithful carrier (no arithmetic ever overflows 32 bits here). -/
abbrev Level := Int

/-- Source constant `None Level = 0`. -/
def levelNone : Level := 0

/-- Source constant `Error Level = 1`. -/
def levelError : Level := 1

/-- Source constant `Info Level = 5`. -/
def levelInfo : Level := 5

/-- Source constant `Debug Level = 10`. -/
def levelDebug : Level := 10

/-- The context carrier is an external collaborator
(`context.Context` plus `telemetry.KeyValuesFromContext`); it is modeled
as the list of key-value pairs that extraction yields for it. -/
abbrev Ctx := List GoVal

/-- Model of `context.Background()`: a carrier with no extractable pairs. -/
def Background : Ctx := []

/-- Model of the external `telemetry.KeyValuesFromContext`: the carrier is
identified with its extractable pairs. -/
def keyValuesFromContext (c : Ctx) : List GoVal := c

/-- A Go slice header: index of the backing array in `Mem.arrs` and the
slice length.  The capacity is the length of the backing array (offsets
are always 0 in this code).  The nil slice is represented by `Option.none`
at its use site. -/
structure Slice where
  arr : Nat
  len : Nat
deriving DecidableEq

/-- The explicit mutable memory: backing arrays for `args` slices, and the
`int32` cells that `lvl *int32` pointers point to. -/
structure Mem where
  arrs : List (List GoVal)
  lvls : List Int
deriving DecidableEq

/-- Source struct `Logger`: context carrier, `args` slice header (`none`
is Go's nil slice), optional metric identifier, index of the shared level
cell (`lvl *int32`), and the identifier of the go-kit sink (`logger`). -/
structure Logger where
  ctx : Ctx
  args : Option Slice
  metric : Option Nat
  lvl : Nat
  logger : Nat
deriving DecidableEq

/-- Observable effects of a leveled call: a metric `RecordContext(ctx, 1)`
invocation, or a `Log(args...)` invocation on the sink. -/
inductive Event where
  | metricRec : Nat → Ctx → Int → Event
  | sinkLog : Nat → List GoVal → Event
deriving DecidableEq

/-- Whether an event is a metric recording. -/
def Event.isMetric : Event → Bool
  | Event.metricRec _ _ _ => true
  | _ => false

/-- Whether an event is a sink invocation. -/
def Event.isSink : Event → Bool
  | Event.sinkLog _ _ => true
  | _ => false

/-- The error behavior of the external sink: what `logger.Log(args...)`
returns for a given sink and argument list.  The code discards it. -/
abbrev SinkErr := Nat → List GoVal → Option String

/-- List lookup with default, used for array and level-cell dereference. -/
def nthD {α : Type} (d : α) : List α → Nat → α
  | [], _ => d
  | a :: _, 0 => a
  | _ :: rest, n + 1 => nthD d rest n

/-- In-place list update; out-of-range updates are no-ops (never reached
through a valid pointer). -/
def setNth {α : Type} : List α → Nat → α → List α
  | [], _, _ => []
  | _ :: rest, 0, v => v :: rest
  | a :: rest, n + 1, v => a :: setNth rest n v

/-- The elements a slice header denotes in a given memory. -/
def readSlice (m : Mem) (s : Slice) : List GoVal :=
  (nthD [] m.arrs s.arr).take s.len

/-- Go `make([]interface, n, c)`: allocate a fresh zeroed backing array of
capacity `c` and return a header of length `n` over it. -/
def makeSlice (m : Mem) (n c : Nat) : Mem × Slice :=
  ({ m with arrs := m.arrs ++ [List.replicate c GoVal.nil] },
   { arr := m.arrs.length, len := n })

/-- Overwrite a prefix of `a` with `xs`, bounded by the length of `a`. -/
def overwrite {α : Type} : List α → List α → List α
  | a, [] => a
  | [], _ :: _ => []
  | _ :: as, x :: xs => x :: overwrite as xs

/-- Go `copy(dst, src)`: write `min (len dst) (len src)` elements of `src`
into the front of `dst`'s backing array. -/
def copySlice (m : Mem) (dst : Slice) (src : List GoVal) : Mem :=
  { m with
    arrs := setNth m.arrs dst.arr
      (overwrite (nthD [] m.arrs dst.arr) (src.take dst.len)) }

/-- Go `append(s, v)` for one element: write in place when capacity
allows, otherwise move to a freshly allocated larger array.  An append of
two elements is two single-element appends (observably identical here). -/
def appendSlice (m : Mem) (s : Slice) (v : GoVal) : Mem × Slice :=
  let a := nthD [] m.arrs s.arr
  if s.len < a.length then
    ({ m with arrs := setNth m.arrs s.arr (setNth a s.len v) },
     { arr := s.arr, len := s.len + 1 })
  else
    ({ m with arrs := m.arrs ++ [a.take s.len ++ [v] ++ List.replicate (s.len + 1) GoVal.nil] },
     { arr := m.arrs.length, len := s.len + 1 })

/-- The loop of `Logger.With`: for `i := 0; i < len(kvs); i += 2`, when
`kvs[i]` is a string append `kvs[i], kvs[i+1]` to the new args slice.  The
one-element case is unreachable: the caller always passes an even-length
list. -/
def withLoop : Mem → Slice → List GoVal → Mem × Slice
  | m, s, [] => (m, s)
  | m, s, [_] => (m, s)
  | m, s, GoVal.str k :: v :: rest =>
    let p := appendSlice m s (GoVal.str k)
    let q := appendSlice p.1 p.2 v
    withLoop q.1 q.2 rest
  | m, s, _ :: _ :: rest => withLoop m s rest

/-- The pairs the `With` loop keeps: string-keyed pairs in input order,
non-string keys dropped together with their values. -/
def stringPairs : List GoVal → List GoVal
  | [] => []
  | [_] => []
  | GoVal.str k :: v :: rest => GoVal.str k :: v :: stringPairs rest
  | _ :: _ :: rest => stringPairs rest

/-- The odd-length fix-up of `Logger.With`: an odd input gets the sentinel
string "(MISSING)" appended to pair with the trailing key. -/
def padOdd (kvs : List GoVal) : List GoVal :=
  if kvs.length % 2 ≠ 0 then kvs ++ [GoVal.str "(MISSING)"] else kvs

/-- Go `len(l.args)`: length field of the slice header, 0 for nil. -/
def argLen (l : Logger) : Nat :=
  match l.args with
  | some s => s.len
  | none => 0

/-- The contents of a logger's `args` slice in a given memory. -/
def readArgs (m : Mem) (l : Logger) : List GoVal :=
  match l.args with
  | some s => readSlice m s
  | none => []

/-- Capacity backing a logger's `args` slice (0 for nil). -/
def argCap (m : Mem) (l : Logger) : Nat :=
  match l.args with
  | some s => (nthD [] m.arrs s.arr).length
  | none => 0

/-- Well-formedness of a slice header: its length is within the capacity
of its backing array.  Every slice the code creates satisfies this. -/
abbrev wfSlice (m : Mem) (s : Slice) : Prop :=
  s.len ≤ (nthD [] m.arrs s.arr).length

/-- Well-formedness of a logger's `args` slice in a memory. -/
abbrev wfArgs (m : Mem) (l : Logger) : Prop :=
  argLen l ≤ argCap m l

/-- Source `atomic.LoadInt32(l.lvl)`: dereference the shared level cell. -/
def readLvl (m : Mem) (l : Logger) : Level :=
  nthD 0 m.lvls l.lvl

/-- Source `New`: a fresh level cell initialized to `Info`, context
`Background`, nil args, no metric, the given sink. -/
def New (m : Mem) (sink : Nat) : Mem × Logger :=
  ({ m with lvls := m.lvls ++ [levelInfo] },
   { ctx := Background, args := none, metric := none, lvl := m.lvls.length, logger := sink })

/-- Source `Logger.SetLevel`: normalize the requested level to one of
Error, Info, Debug and store it atomically in the shared cell. -/
def Logger.SetLevel (l : Logger) (m : Mem) (lvl : Level) : Mem :=
  let lvl := if lvl < levelInfo then levelError
    else if lvl < levelDebug then levelInfo
    else levelDebug
  { m with lvls := setNth m.lvls l.lvl lvl }

/-- Source `Logger.Debug`: gate on the shared level, then build
`"msg", msg, "level", "debug"` followed by context pairs, the logger's
args and the call's pairs, and hand them to the sink, discarding the
sink's returned error.  The trace of external calls is returned. -/
def Logger.Debug (l : Logger) (se : SinkErr) (m : Mem) (msg : String)
    (keyValues : List GoVal) : List Event :=
  if readLvl m l < levelDebug then []
  else
    let args := GoVal.str "msg" :: GoVal.str msg :: GoVal.str "level" :: GoVal.str "debug" ::
      (keyValuesFromContext l.ctx ++ readArgs m l ++ keyValues)
    let _ := se l.logger args
    [Event.sinkLog l.logger args]

/-- Source `Logger.Info`: record the metric first (when attached,
unconditionally), then gate and emit as in `Debug` with level "info". -/
def Logger.Info (l : Logger) (se : SinkErr) (m : Mem) (msg : String)
    (keyValues : List GoVal) : List Event :=
  (match l.metric with
   | some mid => [Event.metricRec mid l.ctx 1]
   | none => []) ++
  (if readLvl m l < levelInfo then []
   else
     let args := GoVal.str "msg" :: GoVal.str msg :: GoVal.str "level" :: GoVal.str "info" ::
       (keyValuesFromContext l.ctx ++ readArgs m l ++ keyValues)
     let _ := se l.logger args
     [Event.sinkLog l.logger args])

/-- Source `Logger.Error`: record the metric first (when attached,
unconditionally), then gate on Error and emit with
`"msg", msg, "level", "error", "error", err` in front. -/
def Logger.Error (l : Logger) (se : SinkErr) (m : Mem) (msg : String)
    (err : GoVal) (keyValues : List GoVal) : List Event :=
  (match l.metric with
   | some mid => [Event.metricRec mid l.ctx 1]
   | none => []) ++
  (if readLvl m l < levelError then []
   else
     let args := GoVal.str "msg" :: GoVal.str msg :: GoVal.str "level" :: GoVal.str "error" ::
       GoVal.str "error" :: err ::
       (keyValuesFromContext l.ctx ++ readArgs m l ++ keyValues)
     let _ := se l.logger args
     [Event.sinkLog l.logger args])

/-- Result of `Logger.With`: either the receiver itself (the empty-input
fast path, no allocation) or a freshly allocated logger. -/
inductive WithResult where
  | same : WithResult
  | fresh : Logger → WithResult
deriving DecidableEq

/-- Source `Logger.With`: empty input returns the same instance; odd
input is padded with "(MISSING)"; a fresh args array of capacity
`len(l.args) + len(kvs)` is allocated, the ancestor's args are copied in,
and the loop appends the string-keyed pairs.  Everything else is shared
with the receiver. -/
def Logger.With (l : Logger) (m : Mem) (keyValues : List GoVal) : Mem × WithResult :=
  if keyValues.length = 0 then (m, WithResult.same)
  else
    let kvs := padOdd keyValues
    let p := makeSlice m (argLen l) (argLen l + kvs.length)
    let m2 := copySlice p.1 p.2 (readArgs p.1 l)
    let q := withLoop m2 p.2 kvs
    (q.1, WithResult.fresh
      { ctx := l.ctx, args := some q.2, metric := l.metric, lvl := l.lvl, logger := l.logger })

/-- The logger a `With` call hands back to its caller. -/
def withResLogger (l : Logger) : WithResult → Logger
  | WithResult.same => l
  | WithResult.fresh l2 => l2

/-- Source `Logger.Context`: replace the context, defensively copy the
args into a fresh array of capacity `len(l.args)`, share everything
else. -/
def Logger.Context (l : Logger) (m : Mem) (c : Ctx) : Mem × Logger :=
  let p := makeSlice m (argLen l) (argLen l)
  let m2 := copySlice p.1 p.2 (readArgs p.1 l)
  (m2, { ctx := c, args := some p.2, metric := l.metric, lvl := l.lvl, logger := l.logger })

/-- Source `Logger.Metric`: replace the metric, defensively copy the
args, share everything else. -/
def Logger.Metric (l : Logger) (m : Mem) (mid : Nat) : Mem × Logger :=
  let p := makeSlice m (argLen l) (argLen l)
  let m2 := copySlice p.1 p.2 (readArgs p.1 l)
  (m2, { ctx := l.ctx, args := some p.2, metric := some mid, lvl := l.lvl, logger := l.logger })

/-- One step of client interaction relevant to the shared state: deriving
a new logger from any logger obtained so far, or setting the level through
any of them.  The leveled calls return only an event trace (their type
shows they cannot write `Mem`), so they contribute no step. -/
inductive LStep : Mem × List Logger → Mem × List Logger → Prop where
  | withStep (m : Mem) (ls : List Logger) (l : Logger) (kvs : List GoVal) (h : l ∈ ls) :
      LStep (m, ls) ((l.With m kvs).1, withResLogger l (l.With m kvs).2 :: ls)
  | ctxStep (m : Mem) (ls : List Logger) (l : Logger) (c : Ctx) (h : l ∈ ls) :
      LStep (m, ls) ((l.Context m c).1, (l.Context m c).2 :: ls)
  | metricStep (m : Mem) (ls : List Logger) (l : Logger) (mid : Nat) (h : l ∈ ls) :
      LStep (m, ls) ((l.Metric m mid).1, (l.Metric m mid).2 :: ls)
  | setLevelStep (m : Mem) (ls : List Logger) (l : Logger) (lvl : Level) (h : l ∈ ls) :
      LStep (m, ls) (l.SetLevel m lvl, ls)

/-- The metric trace the spec prescribes for an Info or Error call. -/
def metricTrace (l : Logger) : List Event :=
  match l.metric with
  | some mid => [Event.metricRec mid l.ctx 1]
  | none => []

/-- Concrete memory for witnesses: no arrays, one level cell at Info. -/
def mem0 : Mem := { arrs := [], lvls := [levelInfo] }

/-- Concrete root logger for witnesses, as `New` would build over an
empty memory with sink 0. -/
def rootL : Logger := { ctx := [], args := none, metric := none, lvl := 0, logger := 0 }

/-- A sink-error behavior for witnesses: the sink never fails. -/
def seNone : SinkErr := fun _ _ => none

/-- A sink-error behavior for witnesses: the sink always fails. -/
def seFail : SinkErr := fun _ _ => some "write failure"

/-- A concrete non-string error value for witnesses. -/
def errX : GoVal := GoVal.other 7

/-! Helper lemmas on the list-with-default and in-place-update layer. -/

theorem length_setNth {α : Type} : ∀ (xs : List α) (i : Nat) (v : α),
    (setNth xs i v).length = xs.length
  | [], _, _ => rfl
  | _ :: _, 0, _ => rfl
  | a :: rest, n + 1, v => by simp [setNth, length_setNth rest n v]

theorem nthD_ge {α : Type} (d : α) : ∀ (xs : List α) (j : Nat),
    xs.length ≤ j → nthD d xs j = d
  | [], _, _ => rfl
  | a :: rest, 0, h => by simp at h
  | a :: rest, j + 1, h => by
    simp only [nthD]
    exact nthD_ge d rest j (by simpa using h)

theorem nthD_append_lt {α : Type} (d : α) : ∀ (xs ys : List α) (j : Nat),
    j < xs.length → nthD d (xs ++ ys) j = nthD d xs j
  | [], _, _, h => by simp at h
  | a :: rest, ys, 0, _ => rfl
  | a :: rest, ys, j + 1, h => by
    simp only [List.cons_append, nthD]
    exact nthD_append_lt d rest ys j (by simpa using h)

theorem nthD_append_self {α : Type} (d : α) : ∀ (xs : List α) (a : α),
    nthD d (xs ++ [a]) xs.length = a
  | [], a => rfl
  | x :: rest, a => by
    simp only [List.cons_append, List.length_cons, nthD]
    exact nthD_append_self d rest a

theorem nthD_setNth_self {α : Type} (d : α) : ∀ (xs : List α) (i : Nat) (v : α),
    i < xs.length → nthD d (setNth xs i v) i = v
  | [], _, _, h => by simp at h
  | a :: rest, 0, v, _ => rfl
  | a :: rest, i + 1, v, h => by
    simp only [setNth, nthD]
    exact nthD_setNth_self d rest i v (by simpa using h)

theorem nthD_setNth_ne {α : Type} (d : α) : ∀ (xs : List α) (i j : Nat) (v : α),
    i ≠ j → nthD d (setNth xs i v) j = nthD d xs j
  | [], _, _, _, _ => rfl
  | a :: rest, 0, 0, v, h => absurd rfl h
  | a :: rest, 0, j + 1, v, _ => rfl
  | a :: rest, i + 1, 0, v, _ => rfl
  | a :: rest, i + 1, j + 1, v, h => by
    simp only [setNth, nthD]
    exact nthD_setNth_ne d rest i j v (fun hc => h (by rw [hc]))

theorem take_setNth_succ {α : Type} : ∀ (xs : List α) (i : Nat) (v : α),
    i < xs.length → (setNth xs i v).take (i + 1) = xs.take i ++ [v]
  | [], _, _, h => by simp at h
  | a :: rest, 0, v, _ => by simp [setNth]
  | a :: rest, i + 1, v, h => by
    simp only [setNth, List.take_succ_cons, List.take, List.cons_append, List.cons.injEq, true_and]
    exact take_setNth_succ rest i v (by simpa using h)

theorem take_append_succ {α : Type} : ∀ (a : List α) (v : α) (rest : List α),
    (a ++ v :: rest).take (a.length + 1) = a ++ [v]
  | [], v, rest => by simp
  | x :: a, v, rest => by
    simp only [List.cons_append, List.length_cons, List.take_succ_cons, List.cons.injEq, true_and]
    exact take_append_succ a v rest

theorem take_overwrite {α : Type} : ∀ (xs a : List α),
    xs.length ≤ a.length → (overwrite a xs).take xs.length = xs
  | [], a, _ => by simp
  | x :: xs, [], h => by simp at h
  | x :: xs, b :: a, h => by
    simp only [overwrite, List.length_cons, List.take_succ_cons, List.cons.injEq, true_and]
    exact take_overwrite xs a (by simpa using h)

theorem overwrite_length {α : Type} : ∀ (a xs : List α),
    (overwrite a xs).length = a.length
  | _, [] => by simp [overwrite]
  | [], _ :: _ => rfl
  | b :: a, x :: xs => by simp [overwrite, overwrite_length a xs]

/-! Lemmas about the Go slice operations over `Mem`. -/

theorem appendSlice_view (m : Mem) (s : Slice) (v : GoVal) (h : wfSlice m s) :
    wfSlice (appendSlice m s v).1 (appendSlice m s v).2 ∧
    readSlice (appendSlice m s v).1 (appendSlice m s v).2 = readSlice m s ++ [v] := by
  unfold wfSlice readSlice at *
  unfold appendSlice
  by_cases hlt : s.len < (nthD [] m.arrs s.arr).length
  · have harr : s.arr < m.arrs.length := by
      by_contra hge
      push_neg at hge
      rw [nthD_ge _ _ _ hge] at hlt
      simp at hlt
    simp only [hlt, if_true]
    refine ⟨?_, ?_⟩
    · rw [nthD_setNth_self _ _ _ _ harr, length_setNth]
      omega
    · rw [nthD_setNth_self _ _ _ _ harr, take_setNth_succ _ _ _ hlt]
  · have heq : s.len = (nthD [] m.arrs s.arr).length := le_antisymm h (not_lt.mp hlt)
    simp only [hlt, if_false]
    have htake : (nthD [] m.arrs s.arr).take s.len = nthD [] m.arrs s.arr := by
      rw [heq, List.take_length]
    refine ⟨?_, ?_⟩
    · rw [nthD_append_self]
      simp [htake]
      omega
    · rw [nthD_append_self, htake, List.append_assoc, List.singleton_append, heq,
        take_append_succ]

theorem appendSlice_frame (m : Mem) (s : Slice) (v : GoVal) (n : Nat)
    (hs : n ≤ s.arr) (hm : n ≤ m.arrs.length) :
    n ≤ (appendSlice m s v).2.arr ∧ n ≤ (appendSlice m s v).1.arrs.length ∧
    (appendSlice m s v).1.lvls = m.lvls ∧
    ∀ j, j < n → nthD [] (appendSlice m s v).1.arrs j = nthD [] m.arrs j := by
  unfold appendSlice
  by_cases hlt : s.len < (nthD [] m.arrs s.arr).length
  · simp only [hlt, if_true]
    refine ⟨hs, ?_, ?_, fun j hj => ?_⟩
    · rw [length_setNth]; exact hm
    · trivial
    · exact nthD_setNth_ne _ _ _ _ _ (by omega)
  · simp only [hlt, if_false]
    refine ⟨hm, ?_, ?_, fun j hj => ?_⟩
    · simp
      omega
    · trivial
    · exact nthD_append_lt _ _ _ _ (by omega)

theorem withLoop_view : ∀ (kvs : List GoVal) (m : Mem) (s : Slice), wfSlice m s →
    wfSlice (withLoop m s kvs).1 (withLoop m s kvs).2 ∧
    readSlice (withLoop m s kvs).1 (withLoop m s kvs).2 = readSlice m s ++ stringPairs kvs
  | [], m, s, h => by simpa [withLoop, stringPairs] using h
  | [k], m, s, h => by simpa [withLoop, stringPairs] using h
  | GoVal.str k :: v :: rest, m, s, h => by
    have h1 := appendSlice_view m s (GoVal.str k) h
    have h2 := appendSlice_view _ _ v h1.1
    have h3 := withLoop_view rest _ _ h2.1
    simp only [withLoop]
    refine ⟨h3.1, ?_⟩
    rw [h3.2, h2.2, h1.2]
    simp [stringPairs]
  | GoVal.nil :: v :: rest, m, s, h => by
    have h3 := withLoop_view rest m s h
    simp only [withLoop]
    refine ⟨h3.1, ?_⟩
    rw [h3.2]
    simp [stringPairs]
  | GoVal.other i :: v :: rest, m, s, h => by
    have h3 := withLoop_view rest m s h
    simp only [withLoop]
    refine ⟨h3.1, ?_⟩
    rw [h3.2]
    simp [stringPairs]

theorem withLoop_frame : ∀ (kvs : List GoVal) (m : Mem) (s : Slice) (n : Nat),
    n ≤ s.arr → n ≤ m.arrs.length →
    n ≤ (withLoop m s kvs).2.arr ∧ n ≤ (withLoop m s kvs).1.arrs.length ∧
    (withLoop m s kvs).1.lvls = m.lvls ∧
    ∀ j, j < n → nthD [] (withLoop m s kvs).1.arrs j = nthD [] m.arrs j
  | [], m, s, n, hs, hm => by simp [withLoop, hs, hm]
  | [k], m, s, n, hs, hm => by simp [withLoop, hs, hm]
  | GoVal.str k :: v :: rest, m, s, n, hs, hm => by
    have h1 := appendSlice_frame m s (GoVal.str k) n hs hm
    have h2 := appendSlice_frame _ _ v n h1.1 h1.2.1
    have h3 := withLoop_frame rest _ _ n h2.1 h2.2.1
    simp only [withLoop]
    refine ⟨h3.1, h3.2.1, ?_, fun j hj => ?_⟩
    · rw [h3.2.2.1, h2.2.2.1, h1.2.2.1]
    · rw [h3.2.2.2 j hj, h2.2.2.2 j hj, h1.2.2.2 j hj]
  | GoVal.nil :: v :: rest, m, s, n, hs, hm => by
    simpa only [withLoop] using withLoop_frame rest m s n hs hm
  | GoVal.other i :: v :: rest, m, s, n, hs, hm => by
    simpa only [withLoop] using withLoop_frame rest m s n hs hm

theorem makeCopy_view (m : Mem) (n c : Nat) (src : List GoVal)
    (hlen : src.length = n) (hnc : n ≤ c) :
    wfSlice (copySlice (makeSlice m n c).1 (makeSlice m n c).2 src) (makeSlice m n c).2 ∧
    readSlice (copySlice (makeSlice m n c).1 (makeSlice m n c).2 src) (makeSlice m n c).2 = src := by
  unfold wfSlice readSlice makeSlice copySlice
  simp only
  have hbase : nthD [] (m.arrs ++ [List.replicate c GoVal.nil]) m.arrs.length =
      List.replicate c GoVal.nil := nthD_append_self _ _ _
  have htk : src.take n = src := by rw [← hlen, List.take_length]
  have hlt : m.arrs.length < (m.arrs ++ [List.replicate c GoVal.nil]).length := by simp
  rw [hbase, htk, nthD_setNth_self _ _ _ _ hlt]
  have hov : (overwrite (List.replicate c GoVal.nil) src).length = c := by
    rw [overwrite_length, List.length_replicate]
  refine ⟨by rw [hov]; exact hnc, ?_⟩
  have := take_overwrite src (List.replicate c GoVal.nil) (by rw [List.length_replicate, hlen]; exact hnc)
  rw [← hlen]
  exact this

theorem makeCopy_frame (m : Mem) (n c : Nat) (src : List GoVal) :
    (copySlice (makeSlice m n c).1 (makeSlice m n c).2 src).lvls = m.lvls ∧
    m.arrs.length + 1 = (copySlice (makeSlice m n c).1 (makeSlice m n c).2 src).arrs.length ∧
    ∀ j, j < m.arrs.length →
      nthD [] (copySlice (makeSlice m n c).1 (makeSlice m n c).2 src).arrs j = nthD [] m.arrs j := by
  refine ⟨?_, ?_, fun j hj => ?_⟩
  · simp [makeSlice, copySlice]
  · simp [makeSlice, copySlice, length_setNth]
  · simp only [makeSlice, copySlice]
    rw [nthD_setNth_ne _ _ _ _ _ (by omega), nthD_append_lt _ _ _ _ hj]

/-! Lemmas about reading a logger's args and level through memory. -/

theorem readArgs_length (m : Mem) (l : Logger) (h : wfArgs m l) :
    (readArgs m l).length = argLen l := by
  cases hA : l.args with
  | none => simp [readArgs, argLen, hA]
  | some s =>
    have h2 : s.len ≤ (nthD [] m.arrs s.arr).length := by
      unfold wfArgs argLen argCap at h
      rw [hA] at h
      exact h
    simp only [readArgs, argLen, hA, readSlice, List.length_take]
    omega

theorem readArgs_frame (m m2 : Mem) (l : Logger) (h : wfArgs m l)
    (hf : ∀ j, j < m.arrs.length → nthD [] m2.arrs j = nthD [] m.arrs j) :
    readArgs m2 l = readArgs m l := by
  cases hA : l.args with
  | none => simp [readArgs, hA]
  | some s =>
    have h2 : s.len ≤ (nthD [] m.arrs s.arr).length := by
      unfold wfArgs argLen argCap at h
      rw [hA] at h
      exact h
    simp only [readArgs, hA, readSlice]
    by_cases harr : s.arr < m.arrs.length
    · rw [hf _ harr]
    · have hz : nthD [] m.arrs s.arr = [] := nthD_ge _ _ _ (not_lt.mp harr)
      rw [hz] at h2
      simp at h2
      rw [h2]
      simp

theorem readLvl_congr (m m2 : Mem) (l : Logger) (h : m2.lvls = m.lvls) :
    readLvl m2 l = readLvl m l := by
  simp [readLvl, h]

theorem logOps_ext (l : Logger) (m m2 : Mem)
    (hl : readLvl m2 l = readLvl m l) (ha : readArgs m2 l = readArgs m l) :
    (∀ se msg kvs, l.Debug se m2 msg kvs = l.Debug se m msg kvs) ∧
    (∀ se msg kvs, l.Info se m2 msg kvs = l.Info se m msg kvs) ∧
    (∀ se msg err kvs, l.Error se m2 msg err kvs = l.Error se m msg err kvs) := by
  refine ⟨fun se msg kvs => ?_, fun se msg kvs => ?_, fun se msg err kvs => ?_⟩ <;>
    simp [Logger.Debug, Logger.Info, Logger.Error, hl, ha]

/-! Lemmas about the derivation operations. -/

theorem With_spec (l : Logger) (m : Mem) (keyValues : List GoVal)
    (hne : keyValues.length ≠ 0) (hwf : wfArgs m l) :
    ∃ s1 : Slice,
      (l.With m keyValues).2 = WithResult.fresh
        { ctx := l.ctx, args := some s1, metric := l.metric, lvl := l.lvl, logger := l.logger } ∧
      m.arrs.length ≤ s1.arr ∧
      readSlice (l.With m keyValues).1 s1 = readArgs m l ++ stringPairs (padOdd keyValues) ∧
      (l.With m keyValues).1.lvls = m.lvls ∧
      m.arrs.length ≤ (l.With m keyValues).1.arrs.length ∧
      ∀ j, j < m.arrs.length → nthD [] (l.With m keyValues).1.arrs j = nthD [] m.arrs j := by
  set kvs := padOdd keyValues with hkvs
  set p := makeSlice m (argLen l) (argLen l + kvs.length) with hp
  set mc := copySlice p.1 p.2 (readArgs p.1 l) with hmc
  set q := withLoop mc p.2 kvs with hq
  have hWith : l.With m keyValues =
      (q.1, WithResult.fresh
        { ctx := l.ctx, args := some q.2, metric := l.metric, lvl := l.lvl, logger := l.logger }) := by
    rw [hq, hmc, hp, hkvs]
    unfold Logger.With
    rw [if_neg hne]
  have hframe1 : ∀ j, j < m.arrs.length → nthD [] p.1.arrs j = nthD [] m.arrs j := by
    intro j hj
    rw [hp]
    simp only [makeSlice]
    exact nthD_append_lt _ _ _ _ hj
  have hsrc : readArgs p.1 l = readArgs m l := readArgs_frame m p.1 l hwf hframe1
  have hlen : (readArgs p.1 l).length = argLen l := by
    rw [hsrc]
    exact readArgs_length m l hwf
  have hmcv := makeCopy_view m (argLen l) (argLen l + kvs.length) (readArgs p.1 l) hlen
    (Nat.le_add_right _ _)
  rw [← hp, ← hmc] at hmcv
  have hmcf := makeCopy_frame m (argLen l) (argLen l + kvs.length) (readArgs p.1 l)
  rw [← hp, ← hmc] at hmcf
  have hp2arr : p.2.arr = m.arrs.length := by
    rw [hp]
    rfl
  have hwl := withLoop_view kvs mc p.2 hmcv.1
  rw [← hq] at hwl
  have hwlf := withLoop_frame kvs mc p.2 m.arrs.length (le_of_eq hp2arr.symm)
    (by omega)
  rw [← hq] at hwlf
  refine ⟨q.2, by rw [hWith], ?_, ?_, ?_, ?_, ?_⟩
  · exact hwlf.1
  · rw [hWith]
    rw [hwl.2, hmcv.2, hsrc]
  · rw [hWith]
    rw [hwlf.2.2.1, hmcf.1]
  · rw [hWith]
    exact hwlf.2.1
  · intro j hj
    rw [hWith]
    rw [hwlf.2.2.2 j hj, hmcf.2.2 j hj]

theorem Context_spec (l : Logger) (m : Mem) (c : Ctx) (hwf : wfArgs m l) :
    ∃ s1 : Slice,
      (l.Context m c).2 =
        { ctx := c, args := some s1, metric := l.metric, lvl := l.lvl, logger := l.logger } ∧
      m.arrs.length ≤ s1.arr ∧
      readSlice (l.Context m c).1 s1 = readArgs m l ∧
      (l.Context m c).1.lvls = m.lvls ∧
      m.arrs.length ≤ (l.Context m c).1.arrs.length ∧
      ∀ j, j < m.arrs.length → nthD [] (l.Context m c).1.arrs j = nthD [] m.arrs j := by
  set p := makeSlice m (argLen l) (argLen l) with hp
  set mc := copySlice p.1 p.2 (readArgs p.1 l) with hmc
  have hCtx : l.Context m c =
      (mc, { ctx := c, args := some p.2, metric := l.metric, lvl := l.lvl, logger := l.logger }) := by
    rw [hmc, hp]
    unfold Logger.Context
    rfl
  have hframe1 : ∀ j, j < m.arrs.length → nthD [] p.1.arrs j = nthD [] m.arrs j := by
    intro j hj
    rw [hp]
    simp only [makeSlice]
    exact nthD_append_lt _ _ _ _ hj
  have hsrc : readArgs p.1 l = readArgs m l := readArgs_frame m p.1 l hwf hframe1
  have hlen : (readArgs p.1 l).length = argLen l := by
    rw [hsrc]
    exact readArgs_length m l hwf
  have hmcv := makeCopy_view m (argLen l) (argLen l) (readArgs p.1 l) hlen (le_refl _)
  rw [← hp, ← hmc] at hmcv
  have hmcf := makeCopy_frame m (argLen l) (argLen l) (readArgs p.1 l)
  rw [← hp, ← hmc] at hmcf
  have hp2arr : p.2.arr = m.arrs.length := by
    rw [hp]
    rfl
  refine ⟨p.2, by rw [hCtx], le_of_eq hp2arr.symm, ?_, ?_, ?_, ?_⟩
  · rw [hCtx]
    rw [hmcv.2, hsrc]
  · rw [hCtx]
    exact hmcf.1
  · rw [hCtx]
    show m.arrs.length ≤ mc.arrs.length
    omega
  · intro j hj
    rw [hCtx]
    exact hmcf.2.2 j hj

theorem Metric_spec (l : Logger) (m : Mem) (mid : Nat) (hwf : wfArgs m l) :
    ∃ s1 : Slice,
      (l.Metric m mid).2 =
        { ctx := l.ctx, args := some s1, metric := some mid, lvl := l.lvl, logger := l.logger } ∧
      m.arrs.length ≤ s1.arr ∧
      readSlice (l.Metric m mid).1 s1 = readArgs m l ∧
      (l.Metric m mid).1.lvls = m.lvls ∧
      m.arrs.length ≤ (l.Metric m mid).1.arrs.length ∧
      ∀ j, j < m.arrs.length → nthD [] (l.Metric m mid).1.arrs j = nthD [] m.arrs j := by
  set p := makeSlice m (argLen l) (argLen l) with hp
  set mc := copySlice p.1 p.2 (readArgs p.1 l) with hmc
  have hCtx : l.Metric m mid =
      (mc, { ctx := l.ctx, args := some p.2, metric := some mid, lvl := l.lvl, logger := l.logger }) := by
    rw [hmc, hp]
    unfold Logger.Metric
    rfl
  have hframe1 : ∀ j, j < m.arrs.length → nthD [] p.1.arrs j = nthD [] m.arrs j := by
    intro j hj
    rw [hp]
    simp only [makeSlice]
    exact nthD_append_lt _ _ _ _ hj
  have hsrc : readArgs p.1 l = readArgs m l := readArgs_frame m p.1 l hwf hframe1
  have hlen : (readArgs p.1 l).length = argLen l := by
    rw [hsrc]
    exact readArgs_length m l hwf
  have hmcv := makeCopy_view m (argLen l) (argLen l) (readArgs p.1 l) hlen (le_refl _)
  rw [← hp, ← hmc] at hmcv
  have hmcf := makeCopy_frame m (argLen l) (argLen l) (readArgs p.1 l)
  rw [← hp, ← hmc] at hmcf
  have hp2arr : p.2.arr = m.arrs.length := by
    rw [hp]
    rfl
  refine ⟨p.2, by rw [hCtx], le_of_eq hp2arr.symm, ?_, ?_, ?_, ?_⟩
  · rw [hCtx]
    rw [hmcv.2, hsrc]
  · rw [hCtx]
    exact hmcf.1
  · rw [hCtx]
    show m.arrs.length ≤ mc.arrs.length
    omega
  · intro j hj
    rw [hCtx]
    exact hmcf.2.2 j hj

theorem With_lvls (l : Logger) (m : Mem) (kvs : List GoVal) :
    (l.With m kvs).1.lvls = m.lvls := by
  unfold Logger.With
  by_cases h : kvs.length = 0
  · rw [if_pos h]
  · rw [if_neg h]
    have key : ∀ (mc : Mem) (s : Slice) (ks : List GoVal), mc.lvls = m.lvls →
        (withLoop mc s ks).1.lvls = m.lvls := fun mc s ks h2 =>
      ((withLoop_frame ks mc s 0 (Nat.zero_le _) (Nat.zero_le _)).2.2.1).trans h2
    exact key _ _ _ rfl

theorem withResLogger_With_lvl (l : Logger) (m : Mem) (kvs : List GoVal) :
    (withResLogger l (l.With m kvs).2).lvl = l.lvl := by
  unfold Logger.With
  by_cases h : kvs.length = 0
  · rw [if_pos h]
    rfl
  · rw [if_neg h]
    rfl

theorem Context_lvls (l : Logger) (m : Mem) (c : Ctx) :
    (l.Context m c).1.lvls = m.lvls := rfl

theorem Context_lvl (l : Logger) (m : Mem) (c : Ctx) :
    (l.Context m c).2.lvl = l.lvl := rfl

theorem Metric_lvls (l : Logger) (m : Mem) (mid : Nat) :
    (l.Metric m mid).1.lvls = m.lvls := rfl

theorem Metric_lvl (l : Logger) (m : Mem) (mid : Nat) :
    (l.Metric m mid).2.lvl = l.lvl := rfl

theorem SetLevel_lvls_length (l : Logger) (m : Mem) (L : Level) :
    (l.SetLevel m L).lvls.length = m.lvls.length := by
  unfold Logger.SetLevel
  exact length_setNth _ _ _

theorem SetLevel_read (l l2 : Logger) (m : Mem) (L : Level)
    (hsame : l2.lvl = l.lvl) (hlt : l.lvl < m.lvls.length) :
    readLvl (l.SetLevel m L) l2 =
      (if L < levelInfo then levelError else if L < levelDebug then levelInfo else levelDebug) := by
  unfold Logger.SetLevel readLvl
  rw [hsame]
  exact nthD_setNth_self _ _ _ _ hlt

theorem SetLevel_read_other (l l2 : Logger) (m : Mem) (L : Level)
    (hne : l.lvl ≠ l2.lvl) :
    readLvl (l.SetLevel m L) l2 = readLvl m l2 := by
  unfold Logger.SetLevel readLvl
  exact nthD_setNth_ne _ _ _ _ _ hne

/-! Invariants of the step relation. -/

theorem lstep_lvl_inv (lv : Nat) (nlen : Nat) (s s2 : Mem × List Logger) (hstep : LStep s s2)
    (hinv : s.1.lvls.length = nlen ∧ ∀ l ∈ s.2, l.lvl = lv) :
    s2.1.lvls.length = nlen ∧ ∀ l2 ∈ s2.2, l2.lvl = lv := by
  cases hstep with
  | withStep m ls l kvs h =>
    refine ⟨?_, fun l2 hl2 => ?_⟩
    · show (l.With m kvs).1.lvls.length = nlen
      rw [With_lvls]
      exact hinv.1
    · rcases List.mem_cons.mp hl2 with h2 | h2
      · rw [h2, withResLogger_With_lvl]
        exact hinv.2 l h
      · exact hinv.2 l2 h2
  | ctxStep m ls l c h =>
    refine ⟨?_, fun l2 hl2 => ?_⟩
    · show (l.Context m c).1.lvls.length = nlen
      rw [Context_lvls]
      exact hinv.1
    · rcases List.mem_cons.mp hl2 with h2 | h2
      · rw [h2, Context_lvl]
        exact hinv.2 l h
      · exact hinv.2 l2 h2
  | metricStep m ls l mid h =>
    refine ⟨?_, fun l2 hl2 => ?_⟩
    · show (l.Metric m mid).1.lvls.length = nlen
      rw [Metric_lvls]
      exact hinv.1
    · rcases List.mem_cons.mp hl2 with h2 | h2
      · rw [h2, Metric_lvl]
        exact hinv.2 l h
      · exact hinv.2 l2 h2
  | setLevelStep m ls l L h =>
    refine ⟨?_, fun l2 hl2 => hinv.2 l2 hl2⟩
    show (l.SetLevel m L).lvls.length = nlen
    rw [SetLevel_lvls_length]
    exact hinv.1

theorem reach_lvl_inv (m0 : Mem) (l0 : Logger) (s : Mem × List Logger)
    (h : Relation.ReflTransGen LStep (m0, [l0]) s) :
    s.1.lvls.length = m0.lvls.length ∧ ∀ l ∈ s.2, l.lvl = l0.lvl := by
  induction h with
  | refl =>
    refine ⟨rfl, fun l hl => ?_⟩
    rw [List.mem_singleton.mp hl]
  | tail hr hstep ih => exact lstep_lvl_inv l0.lvl m0.lvls.length _ _ hstep ih

theorem lstep_val_inv (s s2 : Mem × List Logger) (hstep : LStep s s2)
    (hinv : ∀ l ∈ s.2, l.lvl < s.1.lvls.length ∧
      (nthD 0 s.1.lvls l.lvl = levelError ∨ nthD 0 s.1.lvls l.lvl = levelInfo ∨
        nthD 0 s.1.lvls l.lvl = levelDebug)) :
    ∀ l2 ∈ s2.2, l2.lvl < s2.1.lvls.length ∧
      (nthD 0 s2.1.lvls l2.lvl = levelError ∨ nthD 0 s2.1.lvls l2.lvl = levelInfo ∨
        nthD 0 s2.1.lvls l2.lvl = levelDebug) := by
  cases hstep with
  | withStep m ls l kvs h =>
    intro l2 hl2
    show l2.lvl < (l.With m kvs).1.lvls.length ∧ _
    rw [With_lvls]
    rcases List.mem_cons.mp hl2 with h2 | h2
    · rw [h2, withResLogger_With_lvl]
      exact hinv l h
    · exact hinv l2 h2
  | ctxStep m ls l c h =>
    intro l2 hl2
    show l2.lvl < (l.Context m c).1.lvls.length ∧ _
    rw [Context_lvls]
    rcases List.mem_cons.mp hl2 with h2 | h2
    · rw [h2, Context_lvl]
      exact hinv l h
    · exact hinv l2 h2
  | metricStep m ls l mid h =>
    intro l2 hl2
    show l2.lvl < (l.Metric m mid).1.lvls.length ∧ _
    rw [Metric_lvls]
    rcases List.mem_cons.mp hl2 with h2 | h2
    · rw [h2, Metric_lvl]
      exact hinv l h
    · exact hinv l2 h2
  | setLevelStep m ls l L h =>
    intro l2 hl2
    obtain ⟨hlen2, hval2⟩ := hinv l2 hl2
    obtain ⟨hlenl, _⟩ := hinv l h
    refine ⟨?_, ?_⟩
    · show l2.lvl < (l.SetLevel m L).lvls.length
      rw [SetLevel_lvls_length]
      exact hlen2
    · by_cases he : l.lvl = l2.lvl
      · have hv := SetLevel_read l l2 m L he.symm hlenl
        unfold readLvl at hv
        rw [hv]
        by_cases h1 : L < levelInfo
        · left
          rw [if_pos h1]
        · by_cases h2 : L < levelDebug
          · right
            left
            rw [if_neg h1, if_pos h2]
          · right
            right
            rw [if_neg h1, if_neg h2]
      · have hv := SetLevel_read_other l l2 m L he
        unfold readLvl at hv
        rw [hv]
        exact hval2

/-! The specification claims. -/

/-- C2: every Info or Error call records the metric exactly once, with the
attached context and increment 1, exactly when a metric is attached — the
memory, and with it the current threshold, is universally quantified, so
this holds whether or not the line is emitted; a Debug call never records
the metric. -/
theorem C2_metric_unconditional (se : SinkErr) (m : Mem) (l : Logger) (msg : String)
    (err : GoVal) (kvs : List GoVal) :
    (l.Info se m msg kvs).filter Event.isMetric = metricTrace l ∧
    (l.Error se m msg err kvs).filter Event.isMetric = metricTrace l ∧
    (l.Debug se m msg kvs).filter Event.isMetric = [] := by
  refine ⟨?_, ?_, ?_⟩
  · cases hm2 : l.metric with
    | none =>
      by_cases h : readLvl m l < levelInfo <;>
        simp [Logger.Info, metricTrace, hm2, h, Event.isMetric, List.filter_append]
    | some mid =>
      by_cases h : readLvl m l < levelInfo <;>
        simp [Logger.Info, metricTrace, hm2, h, Event.isMetric, List.filter_append]
  · cases hm2 : l.metric with
    | none =>
      by_cases h : readLvl m l < levelError <;>
        simp [Logger.Error, metricTrace, hm2, h, Event.isMetric, List.filter_append]
    | some mid =>
      by_cases h : readLvl m l < levelError <;>
        simp [Logger.Error, metricTrace, hm2, h, Event.isMetric, List.filter_append]
  · by_cases h : readLvl m l < levelDebug <;>
      simp [Logger.Debug, h, Event.isMetric]

/-- C3: each leveled call invokes the sink exactly once when the current
threshold is at least the call's own level (Debug 10, Info 5, Error 1) and
not at all otherwise. -/
theorem C3_gating (se : SinkErr) (m : Mem) (l : Logger) (msg : String)
    (err : GoVal) (kvs : List GoVal) :
    ((l.Debug se m msg kvs).filter Event.isSink).length =
      (if levelDebug ≤ readLvl m l then 1 else 0) ∧
    ((l.Info se m msg kvs).filter Event.isSink).length =
      (if levelInfo ≤ readLvl m l then 1 else 0) ∧
    ((l.Error se m msg err kvs).filter Event.isSink).length =
      (if levelError ≤ readLvl m l then 1 else 0) := by
  refine ⟨?_, ?_, ?_⟩
  · by_cases h : readLvl m l < levelDebug
    · simp [Logger.Debug, h, Event.isSink, not_le.mpr h]
    · simp [Logger.Debug, h, Event.isSink, not_lt.mp h]
  · cases hm2 : l.metric with
    | none =>
      by_cases h : readLvl m l < levelInfo
      · simp [Logger.Info, hm2, h, Event.isSink, not_le.mpr h, List.filter_append]
      · simp [Logger.Info, hm2, h, Event.isSink, not_lt.mp h, List.filter_append]
    | some mid =>
      by_cases h : readLvl m l < levelInfo
      · simp [Logger.Info, hm2, h, Event.isSink, not_le.mpr h, List.filter_append]
      · simp [Logger.Info, hm2, h, Event.isSink, not_lt.mp h, List.filter_append]
  · cases hm2 : l.metric with
    | none =>
      by_cases h : readLvl m l < levelError
      · simp [Logger.Error, hm2, h, Event.isSink, not_le.mpr h, List.filter_append]
      · simp [Logger.Error, hm2, h, Event.isSink, not_lt.mp h, List.filter_append]
    | some mid =>
      by_cases h : readLvl m l < levelError
      · simp [Logger.Error, hm2, h, Event.isSink, not_le.mpr h, List.filter_append]
      · simp [Logger.Error, hm2, h, Event.isSink, not_lt.mp h, List.filter_append]

/-- C4: when a call is emitted, the key-value sequence handed to the sink
is, in order: "msg" with the message, "level" with the call's own level
name, for Error also "error" with the caller's error value, then the pairs
extracted from the attached context, then the accumulated derivation
fields, then the pairs supplied to the call. -/
theorem C4_payload_order (se : SinkErr) (m : Mem) (l : Logger) (msg : String)
    (err : GoVal) (kvs : List GoVal) :
    (levelDebug ≤ readLvl m l →
      (l.Debug se m msg kvs).filter Event.isSink =
        [Event.sinkLog l.logger
          (GoVal.str "msg" :: GoVal.str msg :: GoVal.str "level" :: GoVal.str "debug" ::
            (keyValuesFromContext l.ctx ++ readArgs m l ++ kvs))]) ∧
    (levelInfo ≤ readLvl m l →
      (l.Info se m msg kvs).filter Event.isSink =
        [Event.sinkLog l.logger
          (GoVal.str "msg" :: GoVal.str msg :: GoVal.str "level" :: GoVal.str "info" ::
            (keyValuesFromContext l.ctx ++ readArgs m l ++ kvs))]) ∧
    (levelError ≤ readLvl m l →
      (l.Error se m msg err kvs).filter Event.isSink =
        [Event.sinkLog l.logger
          (GoVal.str "msg" :: GoVal.str msg :: GoVal.str "level" :: GoVal.str "error" ::
            GoVal.str "error" :: err ::
            (keyValuesFromContext l.ctx ++ readArgs m l ++ kvs))]) := by
  refine ⟨fun h => ?_, fun h => ?_, fun h => ?_⟩
  · simp [Logger.Debug, not_lt.mpr h, Event.isSink]
  · cases hm2 : l.metric <;>
      simp [Logger.Info, hm2, not_lt.mpr h, Event.isSink, Event.isMetric, List.filter_append]
  · cases hm2 : l.metric <;>
      simp [Logger.Error, hm2, not_lt.mpr h, Event.isSink, Event.isMetric, List.filter_append]

/-- C5: SetLevel stores Error for a requested level below Info(5), Info
for a level in [Info(5), Debug(10)), and Debug for a level at or above
Debug(10); the stored value is always one of these three. -/
theorem C5_setlevel_normalize (m : Mem) (l : Logger) (L : Level)
    (h : l.lvl < m.lvls.length) :
    readLvl (l.SetLevel m L) l =
      (if L < levelInfo then levelError else if L < levelDebug then levelInfo else levelDebug) ∧
    (readLvl (l.SetLevel m L) l = levelError ∨ readLvl (l.SetLevel m L) l = levelInfo ∨
      readLvl (l.SetLevel m L) l = levelDebug) := by
  have h1 := SetLevel_read l l m L rfl h
  refine ⟨h1, ?_⟩
  rw [h1]
  by_cases ha : L < levelInfo
  · left
    rw [if_pos ha]
  · by_cases hb : L < levelDebug
    · right
      left
      rw [if_neg ha, if_pos hb]
    · right
      right
      rw [if_neg ha, if_neg hb]

/-- C5 witness: at the concrete request 7 the stored level is Info. -/
theorem C5_setlevel_normalize_witness :
    rootL.lvl < mem0.lvls.length ∧
    readLvl (rootL.SetLevel mem0 7) rootL =
      (if (7 : Level) < levelInfo then levelError
       else if (7 : Level) < levelDebug then levelInfo else levelDebug) :=
  ⟨by decide, (C5_setlevel_normalize mem0 rootL 7 (by decide)).1⟩

/-- C8: the sink's returned error is discarded: the observable outcome of
every leveled call is identical under any two sink error behaviors (the
operations' types return traces, never an error, so no operation can
propagate a failure to its caller). -/
theorem C8_sink_error_discarded (se se2 : SinkErr) (m : Mem) (l : Logger) (msg : String)
    (err : GoVal) (kvs : List GoVal) :
    l.Debug se m msg kvs = l.Debug se2 m msg kvs ∧
    l.Info se m msg kvs = l.Info se2 m msg kvs ∧
    l.Error se m msg err kvs = l.Error se2 m msg err kvs :=
  ⟨rfl, rfl, rfl⟩

/-- C4 witness: the spec's concrete scenario — a root logger at the
default Info threshold; calling Error with message "disk full", error
value errX and pairs "path", "/tmp" hands the sink exactly the eight
values of the claim (the context contributes nothing, no fields were
attached). -/
theorem C4_payload_order_witness :
    levelError ≤ readLvl mem0 rootL ∧
    (rootL.Error seNone mem0 "disk full" errX [GoVal.str "path", GoVal.str "/tmp"]).filter
        Event.isSink =
      [Event.sinkLog 0 [GoVal.str "msg", GoVal.str "disk full", GoVal.str "level",
        GoVal.str "error", GoVal.str "error", errX, GoVal.str "path", GoVal.str "/tmp"]] :=
  ⟨by decide, ((C4_payload_order seNone mem0 rootL "disk full" errX
      [GoVal.str "path", GoVal.str "/tmp"]).2.2 (by decide)).trans (by decide)⟩

/-- C6: With on an empty input returns the same instance with the memory
untouched (no allocation); otherwise it returns a fresh instance whose
fields are the ancestor's fields followed by exactly the string-keyed
pairs of the input, after the odd-length input was padded with the
sentinel "(MISSING)" and non-string-keyed pairs were dropped with their
values. -/
theorem C6_with_input_normalization (m : Mem) (l : Logger) (kvs : List GoVal)
    (hwf : wfArgs m l) :
    (kvs = [] → l.With m kvs = (m, WithResult.same)) ∧
    (kvs ≠ [] → ∃ l2, (l.With m kvs).2 = WithResult.fresh l2 ∧
      readArgs (l.With m kvs).1 l2 = readArgs m l ++ stringPairs (padOdd kvs)) := by
  refine ⟨fun he => ?_, fun hne => ?_⟩
  · rw [he]
    simp [Logger.With]
  · obtain ⟨s1, hres, _, hview, _, _, _⟩ :=
      With_spec l m kvs (fun h0 => hne (List.length_eq_zero.mp h0)) hwf
    exact ⟨_, hres, hview⟩

/-- C6 witness: with a well-formed root logger, With of the single key
"k" pads with the sentinel and yields fields "k", "(MISSING)". -/
theorem C6_with_input_normalization_witness :
    wfArgs mem0 rootL ∧ ([GoVal.str "k"] : List GoVal) ≠ [] ∧
    ∃ l2, (rootL.With mem0 [GoVal.str "k"]).2 = WithResult.fresh l2 ∧
      readArgs (rootL.With mem0 [GoVal.str "k"]).1 l2 =
        [GoVal.str "k", GoVal.str "(MISSING)"] :=
  ⟨by decide, by decide, by
    obtain ⟨l2, h1, h2⟩ :=
      (C6_with_input_normalization mem0 rootL [GoVal.str "k"] (by decide)).2 (by decide)
    exact ⟨l2, h1, h2.trans (by decide)⟩⟩

/-- C7: no derivation mutates the ancestor.  After With, Context or
Metric, the ancestor's fields read from memory and its shared level are
unchanged (its own record is a value, and the fresh args array is disjoint
from every pre-existing array), so every subsequent leveled call of the
ancestor is unchanged. -/
theorem C7_derivation_never_mutates_ancestor (m : Mem) (l : Logger) (kvs : List GoVal)
    (c : Ctx) (mid : Nat) (hwf : wfArgs m l) :
    readArgs (l.With m kvs).1 l = readArgs m l ∧
    readLvl (l.With m kvs).1 l = readLvl m l ∧
    readArgs (l.Context m c).1 l = readArgs m l ∧
    readLvl (l.Context m c).1 l = readLvl m l ∧
    readArgs (l.Metric m mid).1 l = readArgs m l ∧
    readLvl (l.Metric m mid).1 l = readLvl m l ∧
    (∀ se msg kv2, l.Debug se (l.With m kvs).1 msg kv2 = l.Debug se m msg kv2) ∧
    (∀ se msg kv2, l.Info se (l.With m kvs).1 msg kv2 = l.Info se m msg kv2) ∧
    (∀ se msg err kv2, l.Error se (l.With m kvs).1 msg err kv2 = l.Error se m msg err kv2) ∧
    (∀ se msg kv2, l.Debug se (l.Context m c).1 msg kv2 = l.Debug se m msg kv2) ∧
    (∀ se msg kv2, l.Info se (l.Context m c).1 msg kv2 = l.Info se m msg kv2) ∧
    (∀ se msg err kv2, l.Error se (l.Context m c).1 msg err kv2 = l.Error se m msg err kv2) ∧
    (∀ se msg kv2, l.Debug se (l.Metric m mid).1 msg kv2 = l.Debug se m msg kv2) ∧
    (∀ se msg kv2, l.Info se (l.Metric m mid).1 msg kv2 = l.Info se m msg kv2) ∧
    (∀ se msg err kv2, l.Error se (l.Metric m mid).1 msg err kv2 = l.Error se m msg err kv2) := by
  have hWfr : ∀ j, j < m.arrs.length → nthD [] (l.With m kvs).1.arrs j = nthD [] m.arrs j := by
    by_cases h0 : kvs.length = 0
    · intro j hj
      have hsame : l.With m kvs = (m, WithResult.same) := by
        unfold Logger.With
        rw [if_pos h0]
      rw [hsame]
    · obtain ⟨s1, _, _, _, _, _, hfr⟩ := With_spec l m kvs h0 hwf
      exact hfr
  have hCfr : ∀ j, j < m.arrs.length → nthD [] (l.Context m c).1.arrs j = nthD [] m.arrs j := by
    obtain ⟨s1, _, _, _, _, _, hfr⟩ := Context_spec l m c hwf
    exact hfr
  have hMfr : ∀ j, j < m.arrs.length → nthD [] (l.Metric m mid).1.arrs j = nthD [] m.arrs j := by
    obtain ⟨s1, _, _, _, _, _, hfr⟩ := Metric_spec l m mid hwf
    exact hfr
  have hWa : readArgs (l.With m kvs).1 l = readArgs m l := readArgs_frame m _ l hwf hWfr
  have hWl : readLvl (l.With m kvs).1 l = readLvl m l :=
    readLvl_congr m _ l (With_lvls l m kvs)
  have hCa : readArgs (l.Context m c).1 l = readArgs m l := readArgs_frame m _ l hwf hCfr
  have hCl : readLvl (l.Context m c).1 l = readLvl m l :=
    readLvl_congr m _ l (Context_lvls l m c)
  have hMa : readArgs (l.Metric m mid).1 l = readArgs m l := readArgs_frame m _ l hwf hMfr
  have hMl : readLvl (l.Metric m mid).1 l = readLvl m l :=
    readLvl_congr m _ l (Metric_lvls l m mid)
  have hW := logOps_ext l m (l.With m kvs).1 hWl hWa
  have hC := logOps_ext l m (l.Context m c).1 hCl hCa
  have hM := logOps_ext l m (l.Metric m mid).1 hMl hMa
  exact ⟨hWa, hWl, hCa, hCl, hMa, hMl, hW.1, hW.2.1, hW.2.2, hC.1, hC.2.1, hC.2.2,
    hM.1, hM.2.1, hM.2.2⟩

/-- C7 witness: concretely, after deriving out of the root logger via
With, Context and Metric, the root's fields and level read back
unchanged. -/
theorem C7_derivation_never_mutates_ancestor_witness :
    wfArgs mem0 rootL ∧
    readArgs (rootL.With mem0 [GoVal.str "a", GoVal.other 1]).1 rootL = readArgs mem0 rootL ∧
    readLvl (rootL.Context mem0 [GoVal.str "rid", GoVal.other 9]).1 rootL =
      readLvl mem0 rootL :=
  ⟨by decide,
    (C7_derivation_never_mutates_ancestor mem0 rootL [GoVal.str "a", GoVal.other 1]
      [GoVal.str "rid", GoVal.other 9] 3 (by decide)).1,
    (C7_derivation_never_mutates_ancestor mem0 rootL [GoVal.str "a", GoVal.other 1]
      [GoVal.str "rid", GoVal.other 9] 3 (by decide)).2.2.2.1⟩

/-- C10: a non-empty With input whose keys are all non-strings does not
take the identity fast path: a fresh logger over a freshly allocated args
array is returned, whose fields nevertheless read back equal to the
ancestor's. -/
theorem C10_no_identity_fastpath (m : Mem) (l : Logger) (kvs : List GoVal)
    (hwf : wfArgs m l) (hne : kvs ≠ []) (hns : stringPairs (padOdd kvs) = []) :
    ∃ l2 s1, (l.With m kvs).2 = WithResult.fresh l2 ∧ l2.args = some s1 ∧
      m.arrs.length ≤ s1.arr ∧
      readArgs (l.With m kvs).1 l2 = readArgs m l := by
  obtain ⟨s1, hres, hfr, hview, _, _, _⟩ :=
    With_spec l m kvs (fun h0 => hne (List.length_eq_zero.mp h0)) hwf
  refine ⟨_, s1, hres, rfl, hfr, ?_⟩
  show readSlice (l.With m kvs).1 s1 = readArgs m l
  rw [hview, hns, List.append_nil]

/-- C10 witness: With of the non-string key 42 paired with "v" returns a
fresh instance over a new array with unchanged fields. -/
theorem C10_no_identity_fastpath_witness :
    (wfArgs mem0 rootL ∧ ([GoVal.other 42, GoVal.str "v"] : List GoVal) ≠ [] ∧
      stringPairs (padOdd [GoVal.other 42, GoVal.str "v"]) = []) ∧
    ∃ l2 s1, (rootL.With mem0 [GoVal.other 42, GoVal.str "v"]).2 = WithResult.fresh l2 ∧
      l2.args = some s1 ∧ mem0.arrs.length ≤ s1.arr ∧
      readArgs (rootL.With mem0 [GoVal.other 42, GoVal.str "v"]).1 l2 =
        readArgs mem0 rootL :=
  ⟨⟨by decide, by decide, by decide⟩,
    C10_no_identity_fastpath mem0 rootL [GoVal.other 42, GoVal.str "v"]
      (by decide) (by decide) (by decide)⟩

/-- C1: every logger reachable from a root by any chain of With, Context,
Metric derivations (with SetLevel calls interleaved through any of them)
carries the root's level-cell index — no private copy — and therefore
after any one of them sets the level, every one of them reads the same
normalized value. -/
theorem C1_shared_level_cell (m0 : Mem) (l0 : Logger) (s : Mem × List Logger)
    (hreach : Relation.ReflTransGen LStep (m0, [l0]) s)
    (hlt : l0.lvl < m0.lvls.length) :
    (∀ l ∈ s.2, l.lvl = l0.lvl) ∧
    (∀ l ∈ s.2, ∀ l2 ∈ s.2, ∀ L : Level,
      readLvl (l.SetLevel s.1 L) l2 =
        (if L < levelInfo then levelError else if L < levelDebug then levelInfo
         else levelDebug)) := by
  obtain ⟨hlen, hl⟩ := reach_lvl_inv m0 l0 s hreach
  refine ⟨hl, fun l h1 l2 h2 L => ?_⟩
  refine SetLevel_read l l2 s.1 L ((hl l2 h2).trans (hl l h1).symm) ?_
  rw [hl l h1, hlen]
  exact hlt

/-- C1 witness: derive a second logger from the root via Context; setting
level 20 through the derived logger makes the root read Debug. -/
theorem C1_shared_level_cell_witness :
    rootL.lvl < mem0.lvls.length ∧
    readLvl ((rootL.Context mem0 []).2.SetLevel (rootL.Context mem0 []).1 20) rootL =
      levelDebug :=
  ⟨by decide,
    ((C1_shared_level_cell mem0 rootL
        ((rootL.Context mem0 []).1, (rootL.Context mem0 []).2 :: [rootL])
        (Relation.ReflTransGen.single
          (LStep.ctxStep mem0 [rootL] rootL [] (List.mem_singleton.mpr rfl)))
        (by decide)).2
      (rootL.Context mem0 []).2 (List.mem_cons_self _ _)
      rootL (List.mem_cons_of_mem _ (List.mem_singleton.mpr rfl)) 20).trans (by decide)⟩

/-- C9: from a logger built by New (threshold initialized to Info), along
any sequence of derivations and SetLevel calls through any derived logger,
every logger's observed threshold is one of Error, Info, Debug and never
None. -/
theorem C9_threshold_never_none (m0 : Mem) (sink : Nat) (s : Mem × List Logger)
    (hreach : Relation.ReflTransGen LStep ((New m0 sink).1, [(New m0 sink).2]) s) :
    ∀ l ∈ s.2, readLvl s.1 l ≠ levelNone ∧
      (readLvl s.1 l = levelError ∨ readLvl s.1 l = levelInfo ∨
        readLvl s.1 l = levelDebug) := by
  have hall : ∀ l ∈ s.2, l.lvl < s.1.lvls.length ∧
      (nthD 0 s.1.lvls l.lvl = levelError ∨ nthD 0 s.1.lvls l.lvl = levelInfo ∨
        nthD 0 s.1.lvls l.lvl = levelDebug) := by
    induction hreach with
    | refl =>
      intro l hl
      rw [List.mem_singleton.mp hl]
      constructor
      · show (New m0 sink).2.lvl < (New m0 sink).1.lvls.length
        unfold New
        simp
      · right
        left
        show nthD 0 (New m0 sink).1.lvls (New m0 sink).2.lvl = levelInfo
        unfold New
        exact nthD_append_self _ _ _
    | tail hr hstep ih => exact lstep_val_inv _ _ hstep ih
  intro l hl
  obtain ⟨_, hv⟩ := hall l hl
  refine ⟨?_, hv⟩
  rcases hv with h | h | h <;>
  · show nthD 0 s.1.lvls l.lvl ≠ levelNone
    rw [h]
    decide

/-- C9 witness: the state right after New satisfies the claim: the fresh
logger reads Info, not None. -/
theorem C9_threshold_never_none_witness :
    readLvl (New mem0 1).1 (New mem0 1).2 ≠ levelNone ∧
    (readLvl (New mem0 1).1 (New mem0 1).2 = levelError ∨
     readLvl (New mem0 1).1 (New mem0 1).2 = levelInfo ∨
     readLvl (New mem0 1).1 (New mem0 1).2 = levelDebug) :=
  C9_threshold_never_none mem0 1 ((New mem0 1).1, [(New mem0 1).2])
    Relation.ReflTransGen.refl (New mem0 1).2 (List.mem_singleton.mpr rfl)

end GokitLog
